import Mathlib

/-!
Verification development for the take-turns assignment scheduler
(`src/main.py`).

The engine keeps two parallel global lists, `USERS : list[str]` and
`DATES : list[datetime.date]`, and mutates them through the operations
`initialize_assignment`, `add_user`, `delete_user`, `delay`, `swap`,
`lookup` and `get_user`.  We embed the state as a `Sched` value and each
operation as a pure function from `Sched` (plus the configuration and the
current day) to either a new `Sched` or a raised Python exception.

Calendar dates are modelled as integers counting days, with day 0 being
1970-01-01 (a Thursday, so Python's `date.weekday()`, Monday = 0, is
`(d + 3) % 7`).  `datetime.timedelta` arithmetic is integer addition and
`date` comparison is integer comparison, which matches Python's
day-ordering of dates.  Python's `%` on integers is floor modulus, which
for a positive modulus agrees with `Int.emod`.

Failures are modelled by the Python exception that the source raises:
`KeyError` (dict lookup miss), `ValueError` (`list.index` miss),
`TypeError` (unsupported comparison), `StopIteration` (a `next(...)`
generator with no default exhausted), and `abort(400)` (the Flask
`HTTPException` used for an invalid delay).
-/

namespace TakeTurns

/-- Python exceptions that `main.py` can raise, as distinct inspectable
kinds. -/
inductive PyError where
  | keyError
  | valueError
  | typeError
  | indexError
  | stopIteration
  | abort400
deriving DecidableEq, Repr

/-- A Python runtime value appearing in the `data_to_dict` dictionary:
the values there are ISO-formatted strings, while `delete_user` compares
such a value against a `datetime.date`. -/
inductive PyVal where
  | str (s : String)
  | date (d : Int)
deriving DecidableEq, Repr

/-- Python's `<=` on two runtime values: defined between two `str` and
between two `date`, a `TypeError` between a `str` and a `date`. -/
def pyLe : PyVal → PyVal → Except PyError Bool
  | .str a, .str b => .ok (decide (a ≤ b))
  | .date a, .date b => .ok (decide (a ≤ b))
  | _, _ => .error .typeError

/-- The engine state: the parallel global lists `USERS` and `DATES`. -/
structure Sched where
  users : List String
  dates : List Int
deriving DecidableEq, Repr

/-- The configuration read from the environment at startup:
`ASSIGNMENT_WEEKDAY_START`, `ASSIGNMENT_INTERVAL_DAYS`,
`ALLOW_ASSIGNMENT_TO_START_TODAY`. -/
structure Config where
  weekday_start : Int
  interval_days : Int
  allow_start_today : Bool
deriving DecidableEq, Repr

/-- The source's default configuration (anchor Monday = 0, interval 7 days,
do not start today). -/
def cfg0 : Config := ⟨0, 7, false⟩

/-- Python's `date.weekday()` (Monday = 0) for day number `d`
(day 0 = 1970-01-01 is a Thursday). -/
def weekday (d : Int) : Int := (d + 3) % 7

/-! ### ISO-8601 date strings (`date.isoformat` / `date.fromisoformat`)

Python's `date` object stores a `(year, month, day)` triple; we model it
as `PyDate`.  `date.fromisoformat` (strictly, as in the Python versions
this app targets) accepts exactly `YYYY-MM-DD` with a valid calendar
date, and `date.isoformat` prints back that zero-padded form. -/

/-- A Python `datetime.date` object as stored: a year/month/day triple. -/
structure PyDate where
  year : Nat
  month : Nat
  day : Nat
deriving DecidableEq, Repr

/-- Gregorian leap-year test. -/
def isLeap (y : Nat) : Bool := y % 4 == 0 && (y % 100 != 0 || y % 400 == 0)

/-- Number of days in a month of a given year. -/
def daysInMonth (y m : Nat) : Nat :=
  if m = 2 then (if isLeap y then 29 else 28)
  else if m = 4 ∨ m = 6 ∨ m = 9 ∨ m = 11 then 30
  else 31

/-- The decimal digit character for `n < 10`. -/
def digitChar (n : Nat) : Char := Char.ofNat (48 + n)

/-- Parse one decimal digit character. -/
def digitVal (c : Char) : Option Nat :=
  if 48 ≤ c.toNat ∧ c.toNat ≤ 57 then some (c.toNat - 48) else none

/-- The character list of `date.isoformat`: zero-padded `YYYY-MM-DD`. -/
def isoChars (d : PyDate) : List Char :=
  [digitChar (d.year / 1000 % 10), digitChar (d.year / 100 % 10),
   digitChar (d.year / 10 % 10), digitChar (d.year % 10), '-',
   digitChar (d.month / 10 % 10), digitChar (d.month % 10), '-',
   digitChar (d.day / 10 % 10), digitChar (d.day % 10)]

/-- Python's `date.isoformat()`. -/
def date_isoformat (d : PyDate) : String := ⟨isoChars d⟩

/-- Strict `date.fromisoformat` on a character list: exactly ten
characters `YYYY-MM-DD`, all digits in the date positions, and a valid
calendar date (`datetime.date` requires `1 ≤ year ≤ 9999`). -/
def fromIsoChars (cs : List Char) : Option PyDate :=
  match cs with
  | [y1, y2, y3, y4, sep1, m1, m2, sep2, d1, d2] =>
    if sep1 = '-' ∧ sep2 = '-' then
      (digitVal y1).bind fun a =>
      (digitVal y2).bind fun b =>
      (digitVal y3).bind fun c =>
      (digitVal y4).bind fun e =>
      (digitVal m1).bind fun f =>
      (digitVal m2).bind fun g =>
      (digitVal d1).bind fun h =>
      (digitVal d2).bind fun i =>
      let y := ((a * 10 + b) * 10 + c) * 10 + e
      let m := f * 10 + g
      let d := h * 10 + i
      if 1 ≤ y ∧ 1 ≤ m ∧ m ≤ 12 ∧ 1 ≤ d ∧ d ≤ daysInMonth y m then
        some ⟨y, m, d⟩
      else none
    else none
  | _ => none

/-- Python's `date.fromisoformat`, `None` modelling the `ValueError` it
raises on a malformed string. -/
def date_fromisoformat (s : String) : Option PyDate := fromIsoChars s.data

/-- Day-number to `(year, month, day)` conversion (proleptic Gregorian,
day 0 = 1970-01-01); the standard closed-form civil-from-days algorithm,
bridging our integer day numbers to the stored form of a Python `date`. -/
def civilFromDays (z0 : Int) : PyDate :=
  let z := z0 + 719468
  let era := z / 146097
  let doe := z - era * 146097
  let yoe := (doe - doe / 1460 + doe / 36524 - doe / 146096) / 365
  let y := yoe + era * 400
  let doy := doe - (365 * yoe + yoe / 4 - yoe / 100)
  let mp := (5 * doy + 2) / 153
  let d := doy - (153 * mp + 2) / 5 + 1
  let m := mp + (if mp < 10 then 3 else -9)
  let y := if m ≤ 2 then y + 1 else y
  ⟨y.toNat, m.toNat, d.toNat⟩

/-- `date.isoformat()` for an integer day number. -/
def dateToIso (d : Int) : String := date_isoformat (civilFromDays d)

/-! ### The schedule engine (`src/main.py`, lines 41-218) -/

/-- `get_first_assignment_date` (main.py:41-47): the start day of a fresh
assignment series. -/
def get_first_assignment_date (cfg : Config) (today : Int) : Int :=
  let diff_days := (cfg.weekday_start - weekday today) % cfg.interval_days
  let diff_days :=
    if diff_days = 0 ∧ cfg.allow_start_today = false then cfg.interval_days
    else diff_days
  today + diff_days

/-- `initialize_assignment` (main.py:50-56): keep the user list, assign
dates starting at the first assignment date with one interval per slot. -/
def initialize_assignment (cfg : Config) (today : Int)
    (users_list : List String) : Sched :=
  let start_date := get_first_assignment_date cfg today
  ⟨users_list,
   (List.range users_list.length).map
     (fun (i : Nat) => start_date + (i : Int) * cfg.interval_days)⟩

/-- `serialize_dates` (main.py:59-60): `[x.isoformat() for x in dates]`. -/
def serialize_dates (dates_list : List Int) : List String :=
  dates_list.map dateToIso

/-- Lookup in a Python `dict` built by `dict(zip(keys, values))` from an
ordered pair list: the *last* binding of a key wins, missing keys are a
`KeyError` (modelled as `none`). -/
def dictGet (pairs : List (String × PyVal)) (k : String) : Option PyVal :=
  match pairs with
  | [] => none
  | (k1, v) :: rest =>
    match dictGet rest k with
    | some v1 => some v1
    | none => if k1 = k then some v else none

/-- `data_to_dict(users, dates, wide=False)` (main.py:113-122): the dict
`dict(zip(users, serialize_dates(dates)))`, whose values are ISO *strings*.
(The `wide=True` branch produces a JSON display shape used only by the
HTTP layer and is needed by no claim.) -/
def data_to_dict (s : Sched) : List (String × PyVal) :=
  s.users.zip ((serialize_dates s.dates).map PyVal.str)

/-- `get_user` (main.py:129-133): returns `([username], [dict_value])`;
the dict value is the ISO string, and a missing key is a `KeyError`. -/
def get_user (s : Sched) (username : String) :
    Except PyError (List String × List PyVal) :=
  match dictGet (data_to_dict s) username with
  | none => .error .keyError
  | some v => .ok ([username], [v])

/-- `add_user` (main.py:136-144): append the username; append
`DATES[-1] + interval` when `DATES` is non-empty, else start a fresh
one-element date list.  The engine performs no duplicate check. -/
def add_user (cfg : Config) (today : Int) (s : Sched) (username : String) :
    Sched :=
  let users := s.users ++ [username]
  if s.dates.length > 0 then
    ⟨users, s.dates ++ [s.dates.getLastD 0 + cfg.interval_days]⟩
  else
    ⟨users, [get_first_assignment_date cfg today]⟩

/-- The `PUT /users/<username>` route guard (main.py:258-262): when the
username is already present the route answers `204 User already in list`
without touching the engine; otherwise it calls `add_user`. -/
def put_user_route (cfg : Config) (today : Int) (s : Sched)
    (username : String) : Sched :=
  if username ∈ s.users then s else add_user cfg today s username

/-- `delete_user` (main.py:147-160): fetch the user's dict entry (an ISO
*string*), compare it with `datetime.date.today()`, then drop `DATES[0]`
or `DATES[:-1]` accordingly and remove the username by value.  The
comparison is `str <= date` and raises `TypeError` in Python 3, so the
mutation is unreachable. -/
def delete_user (today : Int) (s : Sched) (username : String) :
    Except PyError Sched := do
  let (_users, dates) ← get_user s username
  let assignment_date := dates.getD 0 (.str "")
  let le ← pyLe assignment_date (.date today)
  if le then
    .ok ⟨s.users.erase username, s.dates.drop 1⟩
  else
    .ok ⟨s.users.erase username, s.dates.dropLast⟩

/-- `regenerate` (main.py:163-167): wholesale replacement by
`initialize_assignment`. -/
def regenerate (cfg : Config) (today : Int) (users : List String) : Sched :=
  initialize_assignment cfg today users

/-- `lookup` (main.py:170-185).  `index_begin` is searched with a caught
`StopIteration` (empty result); `index_end` is searched by a bare
`next(...)` with *no* default, so when no date exceeds `period_end` the
`StopIteration` escapes.  Python slices `l[a:b]` are `(l.take b).drop a`. -/
def lookup (s : Sched) (period_begin : Int) (period_end : Option Int) :
    Except PyError (List String × List Int) :=
  match s.dates.findIdx? (fun date => period_begin ≤ date) with
  | none => .ok ([], [])
  | some index_begin =>
    match period_end with
    | none =>
      if index_begin < s.users.length then
        .ok ([s.users.getD index_begin ""], [s.dates.getD index_begin 0])
      else .error .indexError
    | some pe =>
      match s.dates.findIdx? (fun date => pe < date) with
      | none => .error .stopIteration
      | some index_end =>
        .ok ((s.users.take index_end).drop index_begin,
             (s.dates.take index_end).drop index_begin)

/-- `delay` (main.py:188-209).  `next_index` is the first date strictly
after today, found by a bare `next(...)` (uncaught `StopIteration` when
none).  `delay_all` shifts the whole tail; otherwise only the next date
is shifted, guarded by `abort(400)` unless it stays strictly before the
following date; the abort happens before any assignment to `DATES`. -/
def delay (today : Int) (delay_all : Bool) (delay_days : Int) (s : Sched) :
    Except PyError Sched :=
  match s.dates.findIdx? (fun date => today < date) with
  | none => .error .stopIteration
  | some next_index =>
    if delay_all then
      .ok ⟨s.users,
           s.dates.take next_index ++
             (s.dates.drop next_index).map (fun x => x + delay_days)⟩
    else
      if next_index = s.dates.length - 1 then
        .ok ⟨s.users,
             s.dates.take next_index ++ [s.dates.getD next_index 0 + delay_days]⟩
      else
        let day_to_delay := s.dates.getD next_index 0
        let day_after := s.dates.getD (next_index + 1) 0
        if day_after - day_to_delay ≤ delay_days then
          .error .abort400
        else
          .ok ⟨s.users,
               s.dates.take next_index ++ [day_to_delay + delay_days] ++
                 s.dates.drop (next_index + 1)⟩

/-- `swap` (main.py:212-218): `list.index` both usernames (`ValueError`
when absent), then the tuple assignment
`USERS[i2], USERS[i1] = USERS[i1], USERS[i2]` writes the old value at
`i1` into slot `i2` and then the old value at `i2` into slot `i1`.
`DATES` is untouched. -/
def swap (s : Sched) (user_1 user_2 : String) : Except PyError Sched :=
  match s.users.indexOf? user_1 with
  | none => .error .valueError
  | some user_1_index =>
    match s.users.indexOf? user_2 with
    | none => .error .valueError
    | some user_2_index =>
      .ok ⟨(s.users.set user_2_index (s.users.getD user_1_index "")).set
             user_1_index (s.users.getD user_2_index ""),
           s.dates⟩

/-! ### The persistence snapshot (`serialize_data` / `deserialize_data`,
main.py:59-77)

A persisted snapshot is `{"assignments": {username: iso_date, ...}}`, an
ordered map which we model as an ordered list of key/value pairs.
`deserialize_data` reads the keys as the user list and parses the values
with `date.fromisoformat`; `save_data` writes back
`dict(zip(users, serialize_dates(dates)))` (the `wide=False` shape). -/

/-- `deserialize_dates` (main.py:63-64): parse every ISO string, a
`ValueError` (modelled `none`) on the first malformed one. -/
def deserialize_dates (dates_list : List String) : Option (List PyDate) :=
  match dates_list with
  | [] => some []
  | x :: rest =>
    match date_fromisoformat x, deserialize_dates rest with
    | some d, some ds => some (d :: ds)
    | _, _ => none

/-- `serialize_data(users, dates, wide=False)` (main.py:67-70) restricted
to its `assignments` payload: the ordered map `dict(zip(users,
[x.isoformat() for x in dates]))`. -/
def serialize_data (users : List String) (dates : List PyDate) :
    List (String × String) :=
  users.zip (dates.map date_isoformat)

/-- `deserialize_data` (main.py:73-77): keys become the user list, values
are parsed as dates. -/
def deserialize_data (assignments : List (String × String)) :
    Option (List String × List PyDate) :=
  match deserialize_dates (assignments.map (fun p => p.2)) with
  | none => none
  | some dates => some (assignments.map (fun p => p.1), dates)

/-! ### The schedule invariant and the reachable states -/

/-- The data-model invariant: parallel lists of equal length, the dates
non-decreasing, the usernames unique. -/
abbrev Inv (s : Sched) : Prop :=
  s.users.length = s.dates.length ∧ s.dates.Sorted (· ≤ ·) ∧ s.users.Nodup

/-- One successful engine mutation, with *no* restriction on the
arguments beyond the operation itself succeeding: `regenerate`/
`initialize_assignment` with any user list, `add_user` with any username,
and any `delay_days : Int`. -/
inductive UStep (cfg : Config) (today : Int) : Sched → Sched → Prop where
  | regen (s : Sched) (us : List String) :
      UStep cfg today s (initialize_assignment cfg today us)
  | addU (s : Sched) (u : String) :
      UStep cfg today s (add_user cfg today s u)
  | delU (s s2 : Sched) (u : String) :
      delete_user today s u = .ok s2 → UStep cfg today s s2
  | delayU (s s2 : Sched) (b : Bool) (d : Int) :
      delay today b d s = .ok s2 → UStep cfg today s s2
  | swapU (s s2 : Sched) (u1 u2 : String) :
      swap s u1 u2 = .ok s2 → UStep cfg today s s2

/-- One successful engine mutation under the guards the route layer (and
the spec's configuration contract) provides: duplicate-free
initialization lists, fresh usernames for `add_user`, and non-negative
delays. -/
inductive GStep (cfg : Config) (today : Int) : Sched → Sched → Prop where
  | regen (s : Sched) (us : List String) : us.Nodup →
      GStep cfg today s (initialize_assignment cfg today us)
  | addU (s : Sched) (u : String) : u ∉ s.users →
      GStep cfg today s (add_user cfg today s u)
  | delU (s s2 : Sched) (u : String) :
      delete_user today s u = .ok s2 → GStep cfg today s s2
  | delayU (s s2 : Sched) (b : Bool) (d : Int) : 0 ≤ d →
      delay today b d s = .ok s2 → GStep cfg today s s2
  | swapU (s s2 : Sched) (u1 u2 : String) :
      swap s u1 u2 = .ok s2 → GStep cfg today s s2

/-- A configuration whose anchor is today's weekday with same-day starts
allowed; day 10 (1970-01-11) has weekday 6 (Sunday), so a fresh
assignment started on day 10 begins on day 10 itself. -/
def cfg1 : Config := ⟨6, 7, true⟩

/-! ### Helper lemmas: `findIdx?` and `indexOf?` -/

theorem findIdx?_some_spec {α : Type _} {p : α → Bool} :
    ∀ {l : List α} {i : Nat}, l.findIdx? p = some i →
      ∃ hlt : i < l.length, p l[i] = true ∧
        ∀ j (hj : j < l.length), j < i → p l[j] = false := by
  intro l
  induction l with
  | nil => intro i h; simp [List.findIdx?_nil] at h
  | cons x xs ih =>
    intro i h
    rw [List.findIdx?_cons] at h
    by_cases hp : p x
    · simp [hp] at h
      subst h
      exact ⟨by simp, by simpa using hp, fun j hj hji => absurd hji (by omega)⟩
    · simp [hp, List.findIdx?_succ] at h
      cases hfi : xs.findIdx? p with
      | none => rw [hfi] at h; simp at h
      | some k =>
        rw [hfi] at h
        simp at h
        subst h
        obtain ⟨hlt, hpk, hmin⟩ := ih hfi
        refine ⟨by simpa using Nat.succ_lt_succ hlt, by simpa using hpk, ?_⟩
        intro j hj hji
        cases j with
        | zero => simpa using hp
        | succ j2 =>
          have := hmin j2 (by omega) (by omega)
          simpa using this

theorem findIdx?_eq_some_of {α : Type _} {p : α → Bool} :
    ∀ {l : List α} {i : Nat} (hlt : i < l.length), p l[i] = true →
      (∀ j (hj : j < l.length), j < i → p l[j] = false) →
      l.findIdx? p = some i := by
  intro l
  induction l with
  | nil => intro i hlt; simp at hlt
  | cons x xs ih =>
    intro i hlt hp hmin
    rw [List.findIdx?_cons]
    cases i with
    | zero => simp_all
    | succ k =>
      have hx : p x = false := hmin 0 (by omega) (by omega)
      rw [hx]
      simp only [Bool.false_eq_true, if_false, List.findIdx?_succ]
      have hrec : xs.findIdx? p = some k := by
        refine ih (by simpa using hlt) (by simpa using hp) ?_
        intro j hj hji
        have := hmin (j + 1) (by omega) (by omega)
        simpa using this
      rw [hrec]
      rfl

theorem indexOf?_some_spec {l : List String} {u : String} {i : Nat}
    (h : l.indexOf? u = some i) :
    ∃ hlt : i < l.length, l[i] = u ∧
      ∀ j (hj : j < l.length), j < i → l[j] ≠ u := by
  obtain ⟨hlt, hp, hmin⟩ := findIdx?_some_spec (p := fun x => x == u) h
  refine ⟨hlt, by simpa using hp, ?_⟩
  intro j hj hji
  simpa using hmin j hj hji

theorem indexOf?_eq_some_of {l : List String} {u : String} {i : Nat}
    (hlt : i < l.length) (he : l[i] = u)
    (hmin : ∀ j (hj : j < l.length), j < i → l[j] ≠ u) :
    l.indexOf? u = some i :=
  findIdx?_eq_some_of hlt (by simpa using he)
    (fun j hj hji => by simpa using hmin j hj hji)

theorem indexOf?_isSome_of_mem {l : List String} {u : String} (h : u ∈ l) :
    ∃ i, l.indexOf? u = some i := by
  cases hfi : l.indexOf? u with
  | some i => exact ⟨i, rfl⟩
  | none =>
    have h2 : l.findIdx? (fun x => x == u) = none := hfi
    have h3 := List.findIdx?_eq_none_iff.mp h2 u h
    simp at h3

/-! ### Helper lemmas: `dictGet` and `delete_user` -/

theorem dictGet_cons (k1 : String) (v1 : PyVal) (rest : List (String × PyVal))
    (k : String) :
    dictGet ((k1, v1) :: rest) k =
      match dictGet rest k with
      | some v2 => some v2
      | none => if k1 = k then some v1 else none := rfl

theorem dictGet_some_mem {ps : List (String × PyVal)} {k : String} {v : PyVal}
    (h : dictGet ps k = some v) : v ∈ ps.map (fun p => p.2) := by
  induction ps with
  | nil => simp [dictGet] at h
  | cons p rest ih =>
    obtain ⟨k1, v1⟩ := p
    cases hrec : dictGet rest k with
    | some v2 =>
      have he : dictGet ((k1, v1) :: rest) k = some v2 := by
        rw [dictGet_cons, hrec]
      rw [he] at h
      injection h with h2
      subst h2
      simp only [List.map_cons, List.mem_cons]
      right
      exact ih hrec
    | none =>
      have he : dictGet ((k1, v1) :: rest) k =
          if k1 = k then some v1 else none := by
        rw [dictGet_cons, hrec]
      rw [he] at h
      split at h
      · injection h with h2; subst h2; simp
      · cases h

theorem data_to_dict_values_str {s : Sched} {k : String} {v : PyVal}
    (h : dictGet (data_to_dict s) k = some v) : ∃ t, v = .str t := by
  have hv := dictGet_some_mem h
  unfold data_to_dict at hv
  rw [List.mem_map] at hv
  obtain ⟨p, hp, hpv⟩ := hv
  obtain ⟨a, b⟩ := p
  have hb := (List.of_mem_zip hp).2
  rw [List.mem_map] at hb
  obtain ⟨t, _, ht⟩ := hb
  exact ⟨t, by rw [← hpv, ← ht]⟩

/-- The `str <= date` comparison at main.py:155 makes every `delete_user`
call fail: when the user is absent the dict lookup is a `KeyError`, and
when present the comparison raises `TypeError` before any mutation. -/
theorem delete_user_ne_ok (today : Int) (s : Sched) (u : String) (s2 : Sched) :
    delete_user today s u ≠ .ok s2 := by
  intro h
  unfold delete_user get_user at h
  cases hg : dictGet (data_to_dict s) u with
  | none => rw [hg] at h; simp [Bind.bind, Except.bind] at h
  | some v =>
    rw [hg] at h
    obtain ⟨t, rfl⟩ := data_to_dict_values_str hg
    simp [Bind.bind, Except.bind, pyLe] at h

/-! ### Claims C1, C2, C5, C4, C10 -/

/-- C1 (code bug): on the concrete schedule `{a ↦ day 0}` with today =
day 100 and `a` present, `delete_user` does not drop a date and remove
the user as the spec (and the code's own comment at main.py:153-154)
describes: it raises `TypeError`, because the assignment date it fetched
from `data_to_dict` is an ISO *string* which it then compares against
`datetime.date.today()`. -/
theorem C1_delete_user_type_error :
    delete_user 100 ⟨["a"], [0]⟩ "a" = .error .typeError := by rfl

/-- C2 (code bug): on the concrete schedule `{a ↦ day 5}` with
`period_begin = 5` and `period_end = 10` every date is `≥ period_begin`
and none exceeds `period_end`, yet `lookup` does not return the slice up
to end-of-list: the bare `next(...)` computing `index_end`
(main.py:182) has no default, so the call fails with `StopIteration`. -/
theorem C2_lookup_stop_iteration :
    lookup ⟨["a"], [5]⟩ 5 (some 10) = .error .stopIteration := by rfl

/-- C5 (confirmed): when every date is on or before today, `delay` fails
for either value of `delay_all` before mutating anything, with the error
kind modelling `NoUpcomingAssignment` (the `StopIteration` escaping from
`next(...)` at main.py:191), which is distinct from the `InvalidDelay`
kind (`abort(400)`). -/
theorem C5_delay_no_upcoming (s : Sched) (today delay_days : Int)
    (delay_all : Bool) (h : ∀ x ∈ s.dates, x ≤ today) :
    delay today delay_all delay_days s = .error .stopIteration ∧
      PyError.stopIteration ≠ PyError.abort400 := by
  have hfi : s.dates.findIdx? (fun date => today < date) = none := by
    rw [List.findIdx?_eq_none_iff]
    intro x hx
    simpa using h x hx
  constructor
  · unfold delay
    rw [hfi]
  · decide

/-- Witness for C5: a one-user schedule whose only date (day 3) is before
today (day 5). -/
theorem C5_delay_no_upcoming_witness :
    delay 5 true 1 ⟨["a"], [3]⟩ = .error .stopIteration ∧
      PyError.stopIteration ≠ PyError.abort400 :=
  C5_delay_no_upcoming ⟨["a"], [3]⟩ 5 1 true (by decide)

/-- C4 (confirmed): when the first date strictly after today is not the
last one, `delay(delay_all := false)` fails with `abort(400)` — state
untouched, since the abort is raised before any assignment to the date
list — exactly when `delay_days` is at least the gap to the following
date, and otherwise shifts only the date at `next_index` forward by
`delay_days`. -/
theorem C4_delay_next_window (s : Sched) (today delay_days : Int) (ni : Nat)
    (hfi : s.dates.findIdx? (fun date => today < date) = some ni)
    (hmid : ni + 1 < s.dates.length) :
    (s.dates.getD (ni + 1) 0 - s.dates.getD ni 0 ≤ delay_days ↔
        delay today false delay_days s = .error .abort400) ∧
    (delay_days < s.dates.getD (ni + 1) 0 - s.dates.getD ni 0 →
        delay today false delay_days s =
          .ok ⟨s.users,
               s.dates.take ni ++ [s.dates.getD ni 0 + delay_days] ++
                 s.dates.drop (ni + 1)⟩) := by
  have hne : ¬ (ni = s.dates.length - 1) := by omega
  unfold delay
  rw [hfi]
  simp only [Bool.false_eq_true, if_false, if_neg hne]
  constructor
  · constructor
    · intro hge
      rw [if_pos hge]
    · intro herr
      by_cases hge : s.dates.getD (ni + 1) 0 - s.dates.getD ni 0 ≤ delay_days
      · exact hge
      · rw [if_neg hge] at herr
        cases herr
  · intro hlt
    rw [if_neg (by omega)]

/-- Witness for C4: schedule `{a ↦ 5, b ↦ 10}` at today = 0, delaying by
7 days; the gap is 5, `5 ≤ 7`, so the call aborts. -/
theorem C4_delay_next_window_witness :
    ((List.getD [(5 : Int), 10] 1 0 - List.getD [(5 : Int), 10] 0 0 ≤ 7 ↔
        delay 0 false 7 ⟨["a", "b"], [5, 10]⟩ = .error .abort400) ∧
      (7 < List.getD [(5 : Int), 10] 1 0 - List.getD [(5 : Int), 10] 0 0 →
        delay 0 false 7 ⟨["a", "b"], [5, 10]⟩ =
          .ok ⟨["a", "b"],
               List.take 0 [(5 : Int), 10] ++ [List.getD [(5 : Int), 10] 0 0 + 7] ++
                 List.drop 1 [(5 : Int), 10]⟩)) :=
  C4_delay_next_window ⟨["a", "b"], [5, 10]⟩ 0 7 0 (by rfl) (by decide)

/-- C10 (confirmed): every *successful* `delay` call leaves the user
list unchanged, preserves the length of the date list, and leaves every
date strictly before `next_index` unchanged. -/
theorem C10_delay_frame (s s2 : Sched) (today delay_days : Int)
    (delay_all : Bool) (ni : Nat)
    (h : delay today delay_all delay_days s = .ok s2)
    (hfi : s.dates.findIdx? (fun date => today < date) = some ni) :
    s2.users = s.users ∧ s2.dates.length = s.dates.length ∧
      s2.dates.take ni = s.dates.take ni := by
  obtain ⟨hlt, -, -⟩ := findIdx?_some_spec hfi
  have hni : ni ≤ s.dates.length := le_of_lt hlt
  have htk : (s.dates.take ni).length = ni := by
    rw [List.length_take]
    exact min_eq_left hni
  unfold delay at h
  rw [hfi] at h
  split at h
  · rename_i heq
    exact Option.noConfusion heq
  · rename_i nidx heq
    injection heq with heq2
    subst heq2
    split at h
    · injection h with h2
      subst h2
      refine ⟨rfl, ?_, ?_⟩
      · simp only [List.length_append, htk, List.length_map, List.length_drop]
        omega
      · rw [List.take_append_of_le_length (by omega)]
        simp [List.take_take]
    · split at h
      · injection h with h2
        subst h2
        rename_i hlast
        refine ⟨rfl, ?_, ?_⟩
        · simp only [List.length_append, htk, List.length_singleton]
          omega
        · rw [List.take_append_of_le_length (by omega)]
          simp [List.take_take]
      · dsimp only at h
        split at h
        · exact Except.noConfusion h
        · injection h with h2
          subst h2
          refine ⟨rfl, ?_, ?_⟩
          · simp only [List.length_append, htk, List.length_singleton,
              List.length_drop]
            omega
          · rw [List.take_append_of_le_length
                (by simp only [List.length_append, htk, List.length_singleton]; omega),
              List.take_append_of_le_length (by omega)]
            simp [List.take_take]

/-- Witness for C10: a successful `delay_all` call on `{a ↦ 5, b ↦ 10}`
at today = 7 (so `next_index` = 1), delaying by 2 days. -/
theorem C10_delay_frame_witness :
    (Sched.mk ["a", "b"] [5, 12]).users = (Sched.mk ["a", "b"] [5, 10]).users ∧
      (Sched.mk ["a", "b"] [5, 12]).dates.length =
        (Sched.mk ["a", "b"] [5, 10]).dates.length ∧
      (Sched.mk ["a", "b"] [5, 12]).dates.take 1 =
        (Sched.mk ["a", "b"] [5, 10]).dates.take 1 :=
  C10_delay_frame ⟨["a", "b"], [5, 10]⟩ ⟨["a", "b"], [5, 12]⟩ 7 2 true 1
    (by rfl) (by rfl)

/-! ### Claim C6 -/

/-- C6 counterexample: with `a` already present, the engine-level
`add_user` neither fails nor leaves the schedule unchanged — it appends a
duplicate `a` and a new date. -/
theorem C6_add_user_cex :
    ("a" ∈ (Sched.mk ["a"] [5]).users) ∧
      add_user cfg0 0 ⟨["a"], [5]⟩ "a" = ⟨["a", "a"], [5, 12]⟩ ∧
      Sched.mk ["a", "a"] [5, 12] ≠ ⟨["a"], [5]⟩ := by decide

/-- C6 amended (proved): duplicate rejection lives only in the route
layer — `PUT /users/<username>` answers without invoking the engine and
leaves the schedule unchanged — while the engine-level `add_user` itself
performs no presence check and appends the duplicate username. -/
theorem C6_add_user_route_guard (cfg : Config) (today : Int) (s : Sched)
    (u : String) (hu : u ∈ s.users) :
    put_user_route cfg today s u = s ∧
      (add_user cfg today s u).users = s.users ++ [u] := by
  constructor
  · unfold put_user_route
    rw [if_pos hu]
  · unfold add_user
    split <;> rfl

/-- Witness for the amended C6 at the schedule `{a ↦ 5}` with the
already-present username `a`. -/
theorem C6_add_user_route_guard_witness :
    put_user_route cfg0 0 ⟨["a"], [5]⟩ "a" = ⟨["a"], [5]⟩ ∧
      (add_user cfg0 0 ⟨["a"], [5]⟩ "a").users = ["a"] ++ ["a"] :=
  C6_add_user_route_guard cfg0 0 ⟨["a"], [5]⟩ "a" (by decide)

/-! ### Claim C8 -/

/-- Unfolding lemma for `get_first_assignment_date`. -/
theorem get_first_assignment_date_eq (cfg : Config) (today : Int) :
    get_first_assignment_date cfg today =
      today +
        (if (cfg.weekday_start - weekday today) % cfg.interval_days = 0 ∧
            cfg.allow_start_today = false
         then cfg.interval_days
         else (cfg.weekday_start - weekday today) % cfg.interval_days) := rfl

/-- C8 counterexample: with anchor 5, interval 3, same-day starts
allowed, on day 4 (a Monday, weekday 0) the function returns day 6 —
whose weekday is 2, not the anchor 5 — even though day 9 (weekday 5) is
on/after today.  The modulus is the *interval*, so the result's weekday
matches the anchor only when the interval is a multiple of 7. -/
theorem C8_first_assignment_cex :
    get_first_assignment_date ⟨5, 3, true⟩ 4 = 6 ∧ weekday 6 ≠ 5 ∧
      weekday 9 = 5 ∧ (4 : Int) ≤ 9 := by decide

/-- C8 amended (proved): the returned date is always
`today + ((anchor - weekday(today)) mod intervalDays)` (forced to
`intervalDays` when the difference is 0 and same-day starts are
disallowed); and in the case `intervalDays = 7` the result is the next
date on/after today whose weekday is the anchor — pushed one week out,
to `today + 7`, when today itself matches and same-day starts are
disallowed. -/
theorem C8_first_assignment (cfg : Config) (today : Int)
    (hi : 0 < cfg.interval_days) (ha0 : 0 ≤ cfg.weekday_start)
    (ha7 : cfg.weekday_start < 7) :
    get_first_assignment_date cfg today =
      today +
        (if (cfg.weekday_start - weekday today) % cfg.interval_days = 0 ∧
            cfg.allow_start_today = false
         then cfg.interval_days
         else (cfg.weekday_start - weekday today) % cfg.interval_days) ∧
    (cfg.interval_days = 7 →
      weekday (get_first_assignment_date cfg today) = cfg.weekday_start ∧
      (cfg.allow_start_today = true ∨ weekday today ≠ cfg.weekday_start →
        today ≤ get_first_assignment_date cfg today ∧
        ∀ x : Int, today ≤ x → weekday x = cfg.weekday_start →
          get_first_assignment_date cfg today ≤ x) ∧
      (cfg.allow_start_today = false ∧ weekday today = cfg.weekday_start →
        get_first_assignment_date cfg today = today + 7)) := by
  refine ⟨rfl, ?_⟩
  intro h7
  rw [get_first_assignment_date_eq, h7]
  unfold weekday
  by_cases hc : (cfg.weekday_start - (today + 3) % 7) % 7 = 0 ∧
      cfg.allow_start_today = false
  · rw [if_pos hc]
    obtain ⟨hc1, hc2⟩ := hc
    refine ⟨by omega, ?_, fun _ => rfl⟩
    intro hcase
    rcases hcase with h1 | h1
    · rw [hc2] at h1
      simp at h1
    · omega
  · rw [if_neg hc]
    have hcm : 0 ≤ (cfg.weekday_start - (today + 3) % 7) % 7 ∧
        (cfg.weekday_start - (today + 3) % 7) % 7 < 7 := by omega
    refine ⟨by omega, ?_, ?_⟩
    · intro hcase
      refine ⟨by omega, ?_⟩
      intro x hx hwx
      omega
    · intro hcond
      obtain ⟨h1, h2⟩ := hcond
      exact absurd ⟨by omega, h1⟩ hc

/-- Witness for the amended C8 at the default configuration on day 4 (a
Monday, the anchor weekday, same-day starts disallowed). -/
theorem C8_first_assignment_witness :
    (get_first_assignment_date cfg0 4 =
      4 +
        (if (cfg0.weekday_start - weekday 4) % cfg0.interval_days = 0 ∧
            cfg0.allow_start_today = false
         then cfg0.interval_days
         else (cfg0.weekday_start - weekday 4) % cfg0.interval_days) ∧
    (cfg0.interval_days = 7 →
      weekday (get_first_assignment_date cfg0 4) = cfg0.weekday_start ∧
      (cfg0.allow_start_today = true ∨ weekday 4 ≠ cfg0.weekday_start →
        (4 : Int) ≤ get_first_assignment_date cfg0 4 ∧
        ∀ x : Int, (4 : Int) ≤ x → weekday x = cfg0.weekday_start →
          get_first_assignment_date cfg0 4 ≤ x) ∧
      (cfg0.allow_start_today = false ∧ weekday 4 = cfg0.weekday_start →
        get_first_assignment_date cfg0 4 = 4 + 7))) :=
  C8_first_assignment cfg0 4 (by decide) (by decide) (by decide)

/-! ### Helper lemmas: the position swap performed by `swap` -/

theorem nodup_getD_inj {l : List String} (hnd : l.Nodup) {x y : Nat}
    (hx : x < l.length) (hy : y < l.length)
    (h : l.getD x "" = l.getD y "") : x = y := by
  rw [List.getD_eq_getElem _ _ hx, List.getD_eq_getElem _ _ hy] at h
  have h2 : l.get ⟨x, hx⟩ = l.get ⟨y, hy⟩ := by
    simpa [List.get_eq_getElem] using h
  have h3 := List.nodup_iff_injective_get.mp hnd h2
  exact congrArg Fin.val h3

theorem getD_swap_pair {l : List String} {i1 i2 : Nat} (h1 : i1 < l.length)
    (h2 : i2 < l.length) (j : Nat) :
    ((l.set i2 (l.getD i1 "")).set i1 (l.getD i2 "")).getD j "" =
      if i1 = j then l.getD i2 ""
      else if i2 = j then l.getD i1 ""
      else l.getD j "" := by
  by_cases hj : j < l.length
  · have hls : j < ((l.set i2 (l.getD i1 "")).set i1 (l.getD i2 "")).length := by
      simpa using hj
    rw [List.getD_eq_getElem _ _ hls, List.getElem_set, List.getElem_set]
    by_cases e1 : i1 = j
    · rw [if_pos e1, if_pos e1]
    · rw [if_neg e1, if_neg e1]
      by_cases e2 : i2 = j
      · rw [if_pos e2, if_pos e2]
      · rw [if_neg e2, if_neg e2, List.getD_eq_getElem _ _ hj]
  · have e1 : ¬ (i1 = j) := by omega
    have e2 : ¬ (i2 = j) := by omega
    rw [if_neg e1, if_neg e2, List.getD_eq_default, List.getD_eq_default]
    · omega
    · simpa using by omega

theorem swap_pair_nodup {l : List String} {i1 i2 : Nat} (h1 : i1 < l.length)
    (h2 : i2 < l.length) (hnd : l.Nodup) :
    ((l.set i2 (l.getD i1 "")).set i1 (l.getD i2 "")).Nodup := by
  rw [List.nodup_iff_injective_get]
  intro a b hab
  have hla : (a : Nat) < l.length := by
    have := a.isLt
    simpa using this
  have hlb : (b : Nat) < l.length := by
    have := b.isLt
    simpa using this
  have hab2 : ((l.set i2 (l.getD i1 "")).set i1 (l.getD i2 "")).getD a.1 "" =
      ((l.set i2 (l.getD i1 "")).set i1 (l.getD i2 "")).getD b.1 "" := by
    rw [List.getD_eq_getElem _ _ a.isLt, List.getD_eq_getElem _ _ b.isLt]
    simpa [List.get_eq_getElem] using hab
  rw [getD_swap_pair h1 h2, getD_swap_pair h1 h2] at hab2
  apply Fin.ext
  by_cases e1a : i1 = a.1
  · rw [if_pos e1a] at hab2
    by_cases e1b : i1 = b.1
    · omega
    · rw [if_neg e1b] at hab2
      by_cases e2b : i2 = b.1
      · rw [if_pos e2b] at hab2
        have := nodup_getD_inj hnd h2 h1 hab2
        omega
      · rw [if_neg e2b] at hab2
        have := nodup_getD_inj hnd h2 hlb hab2
        omega
  · rw [if_neg e1a] at hab2
    by_cases e2a : i2 = a.1
    · rw [if_pos e2a] at hab2
      by_cases e1b : i1 = b.1
      · rw [if_pos e1b] at hab2
        have := nodup_getD_inj hnd h1 h2 hab2
        omega
      · rw [if_neg e1b] at hab2
        by_cases e2b : i2 = b.1
        · omega
        · rw [if_neg e2b] at hab2
          have := nodup_getD_inj hnd h1 hlb hab2
          omega
    · rw [if_neg e2a] at hab2
      by_cases e1b : i1 = b.1
      · rw [if_pos e1b] at hab2
        have := nodup_getD_inj hnd hla h2 hab2
        omega
      · rw [if_neg e1b] at hab2
        by_cases e2b : i2 = b.1
        · rw [if_pos e2b] at hab2
          have := nodup_getD_inj hnd hla h1 hab2
          omega
        · rw [if_neg e2b] at hab2
          have := nodup_getD_inj hnd hla hlb hab2
          omega

theorem swap_eq {s : Sched} {u1 u2 : String} {i1 i2 : Nat}
    (hI1 : s.users.indexOf? u1 = some i1)
    (hI2 : s.users.indexOf? u2 = some i2) :
    swap s u1 u2 =
      .ok ⟨(s.users.set i2 (s.users.getD i1 "")).set i1 (s.users.getD i2 ""),
           s.dates⟩ := by
  unfold swap
  rw [hI1, hI2]

/-! ### Claim C7 -/

/-- C7 (confirmed): for two usernames present in a schedule with unique
usernames, `swap` exchanges exactly the two positions and leaves the
dates untouched; swapping the same pair again restores the original
schedule (involution), and swapping a username with itself is a no-op. -/
theorem C7_swap_exchanges (s : Sched) (u1 u2 u : String)
    (hnd : s.users.Nodup) (h1 : u1 ∈ s.users) (h2 : u2 ∈ s.users)
    (hu : u ∈ s.users) :
    ∃ s2 i1 i2,
      s.users.indexOf? u1 = some i1 ∧ s.users.indexOf? u2 = some i2 ∧
      swap s u1 u2 = .ok s2 ∧ s2.dates = s.dates ∧
      s2.users.length = s.users.length ∧
      (∀ j, j < s.users.length →
        s2.users.getD j "" =
          if i1 = j then u2 else if i2 = j then u1 else s.users.getD j "") ∧
      swap s2 u1 u2 = .ok s ∧
      swap s u u = .ok s := by
  obtain ⟨i1, hI1⟩ := indexOf?_isSome_of_mem h1
  obtain ⟨i2, hI2⟩ := indexOf?_isSome_of_mem h2
  obtain ⟨hlt1, hv1, hmin1⟩ := indexOf?_some_spec hI1
  obtain ⟨hlt2, hv2, hmin2⟩ := indexOf?_some_spec hI2
  have hg1 : s.users.getD i1 "" = u1 := by
    rw [List.getD_eq_getElem _ _ hlt1]
    exact hv1
  have hg2 : s.users.getD i2 "" = u2 := by
    rw [List.getD_eq_getElem _ _ hlt2]
    exact hv2
  have huniq1 : ∀ j, j < s.users.length → s.users.getD j "" = u1 → j = i1 := by
    intro j hj hjv
    exact nodup_getD_inj hnd hj hlt1 (by rw [hjv, hg1])
  have huniq2 : ∀ j, j < s.users.length → s.users.getD j "" = u2 → j = i2 := by
    intro j hj hjv
    exact nodup_getD_inj hnd hj hlt2 (by rw [hjv, hg2])
  have hLgetD : ∀ j,
      ((s.users.set i2 (s.users.getD i1 "")).set i1
        (s.users.getD i2 "")).getD j "" =
      if i1 = j then u2 else if i2 = j then u1 else s.users.getD j "" := by
    intro j
    rw [getD_swap_pair hlt1 hlt2, hg1, hg2]
  have hLlen : ((s.users.set i2 (s.users.getD i1 "")).set i1
      (s.users.getD i2 "")).length = s.users.length := by simp
  have hLi1 : ((s.users.set i2 (s.users.getD i1 "")).set i1
      (s.users.getD i2 "")).getD i1 "" = u2 := by
    rw [hLgetD, if_pos rfl]
  have hLi2 : ((s.users.set i2 (s.users.getD i1 "")).set i1
      (s.users.getD i2 "")).getD i2 "" = u1 := by
    rw [hLgetD]
    by_cases e : i1 = i2
    · rw [if_pos e, ← hg2, ← e, hg1]
    · rw [if_neg e, if_pos rfl]
  have hi1L : i1 < ((s.users.set i2 (s.users.getD i1 "")).set i1
      (s.users.getD i2 "")).length := by omega
  have hi2L : i2 < ((s.users.set i2 (s.users.getD i1 "")).set i1
      (s.users.getD i2 "")).length := by omega
  have hJ1 : ((s.users.set i2 (s.users.getD i1 "")).set i1
      (s.users.getD i2 "")).indexOf? u1 = some i2 := by
    apply indexOf?_eq_some_of hi2L
    · exact (List.getD_eq_getElem _ "" hi2L).symm.trans hLi2
    · intro j hj hji2 hval
      have hval2 : ((s.users.set i2 (s.users.getD i1 "")).set i1
          (s.users.getD i2 "")).getD j "" = u1 :=
        (List.getD_eq_getElem _ "" hj).trans hval
      rw [hLgetD] at hval2
      by_cases ea : i1 = j
      · rw [if_pos ea] at hval2
        have hii : i2 = i1 := huniq1 i2 hlt2 (by rw [hg2, hval2])
        omega
      · rw [if_neg ea] at hval2
        by_cases eb : i2 = j
        · omega
        · rw [if_neg eb] at hval2
          have := huniq1 j (by omega) hval2
          omega
  have hJ2 : ((s.users.set i2 (s.users.getD i1 "")).set i1
      (s.users.getD i2 "")).indexOf? u2 = some i1 := by
    apply indexOf?_eq_some_of hi1L
    · exact (List.getD_eq_getElem _ "" hi1L).symm.trans hLi1
    · intro j hj hji1 hval
      have hval2 : ((s.users.set i2 (s.users.getD i1 "")).set i1
          (s.users.getD i2 "")).getD j "" = u2 :=
        (List.getD_eq_getElem _ "" hj).trans hval
      rw [hLgetD] at hval2
      by_cases ea : i1 = j
      · omega
      · rw [if_neg ea] at hval2
        by_cases eb : i2 = j
        · rw [if_pos eb] at hval2
          have hii : i1 = i2 := huniq2 i1 hlt1 (by rw [hg1, hval2])
          omega
        · rw [if_neg eb] at hval2
          have := huniq2 j (by omega) hval2
          omega
  refine ⟨⟨(s.users.set i2 (s.users.getD i1 "")).set i1 (s.users.getD i2 ""),
           s.dates⟩, i1, i2, hI1, hI2, swap_eq hI1 hI2, rfl, hLlen, ?_, ?_, ?_⟩
  · intro j hj
    exact hLgetD j
  · rw [swap_eq hJ1 hJ2]
    have hfinal : ((((s.users.set i2 (s.users.getD i1 "")).set i1
          (s.users.getD i2 "")).set i1
            (((s.users.set i2 (s.users.getD i1 "")).set i1
              (s.users.getD i2 "")).getD i2 "")).set i2
          (((s.users.set i2 (s.users.getD i1 "")).set i1
            (s.users.getD i2 "")).getD i1 "")) = s.users := by
      apply List.ext_getElem (by simp)
      intro n hn1 hn2
      rw [← List.getD_eq_getElem _ "" hn1, hLi2, hLi1]
      have hval := @getD_swap_pair
        ((s.users.set i2 (s.users.getD i1 "")).set i1 (s.users.getD i2 ""))
        i2 i1 hi2L hi1L n
      rw [hLi1, hLi2] at hval
      rw [hval, hLgetD]
      by_cases ea : i2 = n
      · rw [if_pos ea]
        subst ea
        rw [← hg2, List.getD_eq_getElem _ _ hlt2]
      · rw [if_neg ea]
        by_cases eb : i1 = n
        · rw [if_pos eb]
          subst eb
          rw [← hg1, List.getD_eq_getElem _ _ hlt1]
        · rw [if_neg eb, if_neg eb, if_neg ea, List.getD_eq_getElem _ _ hn2]
    rw [hfinal]
  · obtain ⟨iu, hIu⟩ := indexOf?_isSome_of_mem hu
    obtain ⟨hltu, hvu, -⟩ := indexOf?_some_spec hIu
    rw [swap_eq hIu hIu]
    have hfix : (s.users.set iu (s.users.getD iu "")).set iu
        (s.users.getD iu "") = s.users := by
      rw [List.set_set]
      apply List.ext_getElem (by simp)
      intro n hn1 hn2
      rw [List.getElem_set]
      split
      · rename_i he
        rw [List.getD_eq_getElem _ _ hltu]
        congr 1
      · rfl
    rw [hfix]

/-- Witness for C7 on the schedule `{a ↦ 1, b ↦ 2, c ↦ 3}`, swapping `a`
and `c` (and `a` with itself for the no-op part). -/
theorem C7_swap_exchanges_witness :
    ∃ s2 i1 i2,
      (Sched.mk ["a", "b", "c"] [1, 2, 3]).users.indexOf? "a" = some i1 ∧
      (Sched.mk ["a", "b", "c"] [1, 2, 3]).users.indexOf? "c" = some i2 ∧
      swap ⟨["a", "b", "c"], [1, 2, 3]⟩ "a" "c" = .ok s2 ∧
      s2.dates = (Sched.mk ["a", "b", "c"] [1, 2, 3]).dates ∧
      s2.users.length = (Sched.mk ["a", "b", "c"] [1, 2, 3]).users.length ∧
      (∀ j, j < (Sched.mk ["a", "b", "c"] [1, 2, 3]).users.length →
        s2.users.getD j "" =
          if i1 = j then "c"
          else if i2 = j then "a"
          else (Sched.mk ["a", "b", "c"] [1, 2, 3]).users.getD j "") ∧
      swap s2 "a" "c" = .ok ⟨["a", "b", "c"], [1, 2, 3]⟩ ∧
      swap ⟨["a", "b", "c"], [1, 2, 3]⟩ "a" "a" =
        .ok ⟨["a", "b", "c"], [1, 2, 3]⟩ :=
  C7_swap_exchanges ⟨["a", "b", "c"], [1, 2, 3]⟩ "a" "c" "a"
    (by decide) (by decide) (by decide) (by decide)

/-! ### Claim C9 -/

theorem digitVal_some {c : Char} {n : Nat} (h : digitVal c = some n) :
    n < 10 ∧ digitChar n = c := by
  unfold digitVal at h
  split at h
  · rename_i hc
    injection h with h2
    subst h2
    refine ⟨by omega, ?_⟩
    unfold digitChar
    have he : 48 + (c.toNat - 48) = c.toNat := by omega
    rw [he, Char.ofNat_toNat]
  · cases h

theorem fromIsoChars_isoChars {cs : List Char} {d : PyDate}
    (h : fromIsoChars cs = some d) : isoChars d = cs := by
  unfold fromIsoChars at h
  split at h
  · rename_i y1 y2 y3 y4 sep1 m1 m2 sep2 d1 d2
    split at h
    · rename_i hsep
      obtain ⟨hs1, hs2⟩ := hsep
      rw [Option.bind_eq_some] at h
      obtain ⟨a, ha, h⟩ := h
      rw [Option.bind_eq_some] at h
      obtain ⟨b, hb, h⟩ := h
      rw [Option.bind_eq_some] at h
      obtain ⟨c, hc, h⟩ := h
      rw [Option.bind_eq_some] at h
      obtain ⟨e, he, h⟩ := h
      rw [Option.bind_eq_some] at h
      obtain ⟨f, hf, h⟩ := h
      rw [Option.bind_eq_some] at h
      obtain ⟨g, hg, h⟩ := h
      rw [Option.bind_eq_some] at h
      obtain ⟨hh, hhv, h⟩ := h
      rw [Option.bind_eq_some] at h
      obtain ⟨i, hi, h⟩ := h
      dsimp only at h
      split at h
      · injection h with h2
        subst h2
        obtain ⟨hab, hac⟩ := digitVal_some ha
        obtain ⟨hbb, hbc⟩ := digitVal_some hb
        obtain ⟨hcb, hcc⟩ := digitVal_some hc
        obtain ⟨heb, hec⟩ := digitVal_some he
        obtain ⟨hfb, hfc⟩ := digitVal_some hf
        obtain ⟨hgb, hgc⟩ := digitVal_some hg
        obtain ⟨hhb, hhc⟩ := digitVal_some hhv
        obtain ⟨hib, hic⟩ := digitVal_some hi
        unfold isoChars
        dsimp only
        rw [show (((a * 10 + b) * 10 + c) * 10 + e) / 1000 % 10 = a by omega,
          show (((a * 10 + b) * 10 + c) * 10 + e) / 100 % 10 = b by omega,
          show (((a * 10 + b) * 10 + c) * 10 + e) / 10 % 10 = c by omega,
          show (((a * 10 + b) * 10 + c) * 10 + e) % 10 = e by omega,
          show (f * 10 + g) / 10 % 10 = f by omega,
          show (f * 10 + g) % 10 = g by omega,
          show (hh * 10 + i) / 10 % 10 = hh by omega,
          show (hh * 10 + i) % 10 = i by omega,
          hac, hbc, hcc, hec, hfc, hgc, hhc, hic, hs1, hs2]
      · cases h
    · cases h
  · cases h

theorem date_fromisoformat_isoformat {v : String} {d : PyDate}
    (h : date_fromisoformat v = some d) : date_isoformat d = v := by
  unfold date_fromisoformat at h
  have h2 := fromIsoChars_isoChars h
  unfold date_isoformat
  rw [h2]

theorem deserialize_dates_roundtrip {vs : List String} {ds : List PyDate}
    (h : deserialize_dates vs = some ds) : ds.map date_isoformat = vs := by
  induction vs generalizing ds with
  | nil =>
    unfold deserialize_dates at h
    injection h with h2
    subst h2
    rfl
  | cons v rest ih =>
    unfold deserialize_dates at h
    split at h
    · rename_i d1 ds2 heq1 heq2
      injection h with h2
      subst h2
      simp only [List.map_cons]
      rw [date_fromisoformat_isoformat heq1, ih heq2]
    · cases h

theorem zip_map_fst_snd_self (x : List (String × String)) :
    (x.map (fun p => p.1)).zip (x.map (fun p => p.2)) = x := by
  induction x with
  | nil => rfl
  | cons p rest ih =>
    simp only [List.map_cons, List.zip_cons_cons, ih]

/-- C9 (confirmed): deserializing a valid persisted snapshot — an
ordered username-to-ISO-date map whose values all parse — and
serializing the result (the `wide=False` shape written by `save_data`)
reproduces the snapshot exactly. -/
theorem C9_serialize_roundtrip (x : List (String × String)) (us : List String)
    (ds : List PyDate) (h : deserialize_data x = some (us, ds)) :
    serialize_data us ds = x := by
  unfold deserialize_data at h
  split at h
  · cases h
  · rename_i dates heq
    injection h with h2
    rw [Prod.mk.injEq] at h2
    obtain ⟨hu, hd⟩ := h2
    subst hu
    subst hd
    unfold serialize_data
    rw [deserialize_dates_roundtrip heq]
    exact zip_map_fst_snd_self x

/-- Witness for C9 on the one-entry snapshot `{alice ↦ 2023-05-01}`. -/
theorem C9_serialize_roundtrip_witness :
    serialize_data ["alice"] [⟨2023, 5, 1⟩] = [("alice", "2023-05-01")] :=
  C9_serialize_roundtrip [("alice", "2023-05-01")] ["alice"] [⟨2023, 5, 1⟩]
    (by rfl)

/-! ### Claim C3: invariant preservation -/

theorem sorted_le_getLastD :
    ∀ (l : List Int) (d : Int), l.Sorted (· ≤ ·) → ∀ x ∈ l, x ≤ l.getLastD d := by
  intro l
  induction l with
  | nil => intro d _ x hx; cases hx
  | cons a t ih =>
    intro d hs x hx
    rw [List.getLastD_cons]
    rcases List.mem_cons.mp hx with rfl | hxt
    · cases t with
      | nil => simp [List.getLastD]
      | cons bv t2 =>
        have hab : x ≤ bv := (List.sorted_cons.mp hs).1 bv (by simp)
        have hb := ih x (List.sorted_cons.mp hs).2 bv (by simp)
        rw [List.getLastD_cons] at hb ⊢
        omega
    · exact ih a (List.sorted_cons.mp hs).2 x hxt

theorem Inv_empty : Inv ⟨[], []⟩ := ⟨rfl, List.sorted_nil, List.nodup_nil⟩

theorem Inv_initialize (cfg : Config) (today : Int) (us : List String)
    (hI : 0 ≤ cfg.interval_days) (hnd : us.Nodup) :
    Inv (initialize_assignment cfg today us) := by
  refine ⟨?_, ?_, hnd⟩
  · unfold initialize_assignment
    dsimp only
    rw [List.length_map, List.length_range]
  · unfold initialize_assignment
    dsimp only
    refine List.pairwise_iff_getElem.mpr ?_
    intro i j hi hj hij
    rw [List.getElem_map, List.getElem_map, List.getElem_range,
      List.getElem_range]
    refine add_le_add_left ?_ _
    refine mul_le_mul_of_nonneg_right ?_ hI
    exact_mod_cast hij.le

theorem Inv_add (cfg : Config) (today : Int) (s : Sched) (u : String)
    (hI : 0 ≤ cfg.interval_days) (hs : Inv s) (hu : u ∉ s.users) :
    Inv (add_user cfg today s u) := by
  obtain ⟨hlen, hsort, hnd⟩ := hs
  have hndu : (s.users ++ [u]).Nodup := by
    refine List.nodup_append.mpr ⟨hnd, List.nodup_singleton _, ?_⟩
    intro a ha hb
    rw [List.mem_singleton] at hb
    subst hb
    exact hu ha
  unfold add_user
  dsimp only
  by_cases hdl : s.dates.length > 0
  · rw [if_pos hdl]
    refine ⟨by simp [hlen], ?_, hndu⟩
    refine List.pairwise_append.mpr ⟨hsort, List.pairwise_singleton _ _, ?_⟩
    intro a ha bv hb
    rw [List.mem_singleton] at hb
    subst hb
    have h1 : a ≤ s.dates.getLastD 0 := sorted_le_getLastD _ 0 hsort a ha
    omega
  · rw [if_neg hdl]
    have hue : s.users = [] := List.eq_nil_of_length_eq_zero (by omega)
    rw [hue]
    exact ⟨by simp, List.sorted_singleton _, by simp⟩

theorem Inv_delay (today d : Int) (b : Bool) (s s2 : Sched) (hd : 0 ≤ d)
    (hs : Inv s) (h : delay today b d s = .ok s2) : Inv s2 := by
  obtain ⟨hlen, hsort, hnd⟩ := hs
  have hpair := List.pairwise_iff_getElem.mp hsort
  have hpairD : ∀ i j, i < j → j < s.dates.length →
      s.dates.getD i 0 ≤ s.dates.getD j 0 := by
    intro i j hij hj
    have hcall := hpair i j (by omega) (by omega) hij
    rw [List.getD_eq_getElem _ _ (show i < s.dates.length by omega),
      List.getD_eq_getElem _ _ hj]
    exact hcall
  unfold delay at h
  split at h
  · exact Except.noConfusion h
  · rename_i ni heq
    obtain ⟨hni, -, -⟩ := findIdx?_some_spec heq
    have htk : (s.dates.take ni).length = ni := by
      rw [List.length_take]
      exact min_eq_left (by omega)
    have hcross : ∀ a ∈ s.dates.take ni, ∀ x ∈ s.dates.drop ni, a ≤ x := by
      have hps : List.Pairwise (· ≤ ·) (s.dates.take ni ++ s.dates.drop ni) := by
        rw [List.take_append_drop]
        exact hsort
      exact (List.pairwise_append.mp hps).2.2
    have hmem_ni : s.dates.getD ni 0 ∈ s.dates.drop ni := by
      rw [List.getD_eq_getElem _ _ hni, List.drop_eq_getElem_cons hni]
      exact List.mem_cons_self _ _
    split at h
    · injection h with h2
      subst h2
      refine ⟨?_, ?_, hnd⟩
      · dsimp only
        rw [List.length_append, htk, List.length_map, List.length_drop]
        omega
      · refine List.pairwise_append.mpr
          ⟨List.Pairwise.sublist (List.take_sublist _ _) hsort,
           List.Pairwise.map _ (fun a bv hab => by omega)
             (List.Pairwise.sublist (List.drop_sublist _ _) hsort), ?_⟩
        intro a ha bv hb
        rw [List.mem_map] at hb
        obtain ⟨x, hx, rfl⟩ := hb
        have := hcross a ha x hx
        omega
    · split at h
      · injection h with h2
        subst h2
        rename_i hlast
        refine ⟨?_, ?_, hnd⟩
        · dsimp only
          rw [List.length_append, htk, List.length_singleton]
          omega
        · refine List.pairwise_append.mpr
            ⟨List.Pairwise.sublist (List.take_sublist _ _) hsort,
             List.pairwise_singleton _ _, ?_⟩
          intro a ha bv hb
          rw [List.mem_singleton] at hb
          subst hb
          have := hcross a ha _ hmem_ni
          omega
      · dsimp only at h
        split at h
        · exact Except.noConfusion h
        · injection h with h2
          subst h2
          rename_i hlast hguard
          have hni1 : ni + 1 < s.dates.length := by omega
          have hgd1 : s.dates.getD (ni + 1) 0 = s.dates[ni + 1] :=
            List.getD_eq_getElem _ _ hni1
          have hmem_ni1 : ∀ bv ∈ s.dates.drop (ni + 1),
              s.dates.getD (ni + 1) 0 ≤ bv := by
            intro bv hb
            rw [List.drop_eq_getElem_cons hni1] at hb
            rcases List.mem_cons.mp hb with rfl | hbt
            · rw [hgd1]
            · rw [hgd1]
              have hsd : List.Sorted (· ≤ ·)
                  (s.dates[ni + 1] :: s.dates.drop (ni + 1 + 1)) := by
                rw [← List.drop_eq_getElem_cons hni1]
                exact List.Pairwise.sublist (List.drop_sublist _ _) hsort
              exact List.rel_of_sorted_cons hsd bv hbt
          have hguard2 : d < s.dates.getD (ni + 1) 0 - s.dates.getD ni 0 := by
            omega
          refine ⟨?_, ?_, hnd⟩
          · dsimp only
            rw [List.length_append, List.length_append, htk,
              List.length_singleton, List.length_drop]
            omega
          · refine List.pairwise_append.mpr ⟨?_, ?_, ?_⟩
            · refine List.pairwise_append.mpr
                ⟨List.Pairwise.sublist (List.take_sublist _ _) hsort,
                 List.pairwise_singleton _ _, ?_⟩
              intro a ha bv hb
              rw [List.mem_singleton] at hb
              subst hb
              have := hcross a ha _ hmem_ni
              omega
            · exact List.Pairwise.sublist (List.drop_sublist _ _) hsort
            · intro a ha bv hb
              have hb1 := hmem_ni1 bv hb
              have hstep : s.dates.getD ni 0 ≤ s.dates.getD (ni + 1) 0 :=
                hpairD ni (ni + 1) (by omega) hni1
              rcases List.mem_append.mp ha with hat | has
              · have := hcross a hat _ hmem_ni
                omega
              · rw [List.mem_singleton] at has
                subst has
                omega

theorem Inv_swap (s s2 : Sched) (u1 u2 : String) (hs : Inv s)
    (h : swap s u1 u2 = .ok s2) : Inv s2 := by
  obtain ⟨hlen, hsort, hnd⟩ := hs
  unfold swap at h
  split at h
  · exact Except.noConfusion h
  · rename_i i1 heq1
    split at h
    · exact Except.noConfusion h
    · rename_i i2 heq2
      injection h with h2
      subst h2
      obtain ⟨hlt1, -, -⟩ := indexOf?_some_spec heq1
      obtain ⟨hlt2, -, -⟩ := indexOf?_some_spec heq2
      exact ⟨by simp [hlen], hsort, swap_pair_nodup hlt1 hlt2 hnd⟩

theorem GStep_inv {cfg : Config} {today : Int} (hI : 0 < cfg.interval_days)
    {s s2 : Sched} (h : GStep cfg today s s2) (hs : Inv s) : Inv s2 := by
  cases h with
  | regen us hnd => exact Inv_initialize cfg today us (by omega) hnd
  | addU u hu => exact Inv_add cfg today _ u (by omega) hs hu
  | delU s2x u hdel => exact absurd hdel (delete_user_ne_ok _ _ _ _)
  | delayU s2x b d hd2 hdel => exact Inv_delay today d b _ _ hd2 hs hdel
  | swapU s2x u1 u2 hsw => exact Inv_swap _ _ u1 u2 hs hsw

/-- C3 amended (proved): starting from the empty schedule, every state
reachable through engine operations whose arguments respect the route
layer's guards and the configuration contract — duplicate-free
initialization lists, fresh usernames for `add_user`, non-negative
`delay_days`, and a positive configured interval — satisfies the
data-model invariant: equal lengths, non-decreasing dates, unique
usernames. -/
theorem C3_invariants (cfg : Config) (today : Int) (s : Sched)
    (hI : 0 < cfg.interval_days)
    (h : Relation.ReflTransGen (GStep cfg today) ⟨[], []⟩ s) : Inv s := by
  induction h with
  | refl => exact Inv_empty
  | tail hsteps hstep ih => exact GStep_inv hI hstep ih

/-- C3 counterexample: with *unrestricted* arguments — here
`delay(delay_all := true, delay_days := -10)`, which the code accepts
without any validation — a schedule violating the sortedness invariant
is reachable from the empty schedule: initialize `[a, b]` on day 10
(dates `[10, 17]`), then delay by `-10` days, reaching dates `[10, 7]`. -/
theorem C3_invariants_cex :
    Relation.ReflTransGen (UStep cfg1 10) ⟨[], []⟩ ⟨["a", "b"], [10, 7]⟩ ∧
      ¬ Inv ⟨["a", "b"], [10, 7]⟩ := by
  constructor
  · have he : initialize_assignment cfg1 10 ["a", "b"] =
        ⟨["a", "b"], [10, 17]⟩ := by decide
    have h1 : UStep cfg1 10 ⟨[], []⟩ ⟨["a", "b"], [10, 17]⟩ :=
      he ▸ UStep.regen ⟨[], []⟩ ["a", "b"]
    have h2 : UStep cfg1 10 ⟨["a", "b"], [10, 17]⟩ ⟨["a", "b"], [10, 7]⟩ :=
      UStep.delayU _ _ true (-10) (by rfl)
    exact Relation.ReflTransGen.tail (Relation.ReflTransGen.single h1) h2
  · intro hInv
    have hbad : ¬ (List.Sorted (· ≤ ·) [(10 : Int), 7]) := by decide
    exact hbad hInv.2.1

/-- Witness for the amended C3: the schedule freshly initialized from
the duplicate-free list `[a, b]` satisfies the invariant. -/
theorem C3_invariants_witness : Inv (initialize_assignment cfg0 10 ["a", "b"]) :=
  C3_invariants cfg0 10 (initialize_assignment cfg0 10 ["a", "b"]) (by decide)
    (Relation.ReflTransGen.single (GStep.regen ⟨[], []⟩ ["a", "b"] (by decide)))

end TakeTurns
